import Mathlib

/-!
Verification of the stompy frame engine (src/stompy/frame.py).

The program is modelled shallowly:

* Strings from the Python code are `List Char` (`Str` below); Python
  byte-string operations become explicit list operations.
* Header mappings (Python `dict`) are association lists in insertion
  order; `dictInsert` mirrors Python dict assignment (replace in place
  when the key exists, append otherwise), `dictErase` mirrors `del`.
* The byte-stream reader `_getline` is modelled over a finite list of
  pending bytes; returning `none` models both the non-blocking
  "no data" early return and a blocking read that never completes.
* The demultiplexer (`get_message` / `get_reply`) is modelled over a
  transport that yields already-parsed frames, with explicit FIFO
  queues and a fuel argument bounding the retry loop.
-/

abbrev Str := List Char

/-- Header values: parsed headers are strings, `content-length` is set to an
integer (`len(body)`) in `as_string`, and `bytes_message` is set to the
Python boolean `True` in `parse_frame`. -/
inductive HVal where
  | str (v : Str)
  | nat (v : Nat)
  | bool (v : Bool)
deriving DecidableEq, Repr

instance : Inhabited HVal := ⟨.str []⟩

/-- Decimal digit character, `digitChar n = chr(48 + n)` for `n < 10`. -/
def digitChar (n : Nat) : Char := Char.ofNat (48 + n)

/-- Fuel-driven decimal rendering; `natReprAux (n+1) n [] = str(n)` in Python. -/
def natReprAux : Nat → Nat → Str → Str
  | 0, _, acc => acc
  | fuel+1, n, acc =>
    if n < 10 then digitChar n :: acc
    else natReprAux fuel (n / 10) (digitChar (n % 10) :: acc)

/-- Decimal rendering of a natural number, as Python `str(n)`. -/
def natRepr (n : Nat) : Str := natReprAux (n+1) n []

/-- Python `"%s" % value` for a header value. -/
def renderHVal : HVal → Str
  | .str v => v
  | .nat n => natRepr n
  | .bool b => if b then "True".data else "False".data

/-- Key membership test on a header mapping, Python `key in dict`. -/
def hasKey (k : Str) (h : List (Str × HVal)) : Bool :=
  h.any (fun p => decide (p.1 = k))

/-- Python dict assignment `h[k] = v`: replace in place when the key is
present, append otherwise. -/
def dictInsert (k : Str) (v : HVal) (h : List (Str × HVal)) : List (Str × HVal) :=
  if hasKey k h then h.map (fun p => if p.1 = k then (k, v) else p)
  else h ++ [(k, v)]

/-- Python `del h[k]` (callers only delete present keys). -/
def dictErase (k : Str) (h : List (Str × HVal)) : List (Str × HVal) :=
  h.filter (fun p => decide (¬ p.1 = k))

/-- Python `h.get(k)`: value of the first entry with key `k`. -/
def dictLookup (k : Str) : List (Str × HVal) → Option HVal
  | [] => none
  | p :: rest => if p.1 = k then some p.2 else dictLookup k rest

/-- Scan for the first occurrence of the adjacent two-character pattern
`a, b`; returns the part before the pattern and the part after it.  This is
what the byte-at-a-time loop of `_getline` computes for the terminator
`"\x00\n"` (`buffer.endswith` becomes true exactly at the first occurrence,
and `buffer[:-2]` is the part before it), and what `str.partition("\n\n")`
computes in `parse_frame`. -/
def scanPair (a b : Char) : Str → Option (Str × Str)
  | [] => none
  | c :: rest =>
    if c = a ∧ rest.head? = some b then some ([], rest.tail)
    else
      match scanPair a b rest with
      | some (pre, post) => some (c :: pre, post)
      | none => none

/-- Whether the adjacent two-character pattern `a, b` occurs in the string. -/
def hasPair (a b : Char) : Str → Bool
  | [] => false
  | c :: rest =>
    if c = a ∧ rest.head? = some b then true else hasPair a b rest

/-- Header-name constants used by frame.py. -/
def bytesMessageK : Str := "bytes_message".data

def contentLengthK : Str := "content-length".data

def xClientK : Str := "x-client".data

def destinationK : Str := "destination".data

def sessionK : Str := "session".data

def receiptK : Str := "receipt".data

def msgCmd : Str := "MESSAGE".data

/-- A structured frame: `Frame.command`, `Frame.headers`, `Frame.body`. -/
structure FrameData where
  command : Str
  headers : List (Str × HVal)
  body : Str
deriving DecidableEq, Repr

/-- One rendered header line without its newline: `"%s:%s" % (key, value)`. -/
def headerLine (p : Str × HVal) : Str := p.1 ++ ':' :: renderHVal p.2

/-- The rendered header block `"".join("%s:%s\n" % (k, v) for ...)`,
iterating the mapping in insertion order. -/
def renderHeaders : List (Str × HVal) → Str
  | [] => []
  | p :: rest => headerLine p ++ '\n' :: renderHeaders rest

/-- The header mutation performed by `as_string` on `self.headers`: if
`bytes_message` is present it is deleted and `content-length` is set to
`len(body)`; then `x-client` is set to the host name. -/
def asStringHeaders (myName : Str) (headers : List (Str × HVal)) (body : Str) :
    List (Str × HVal) :=
  dictInsert xClientK (.str myName)
    (if hasKey bytesMessageK headers then
       dictInsert contentLengthK (.nat body.length) (dictErase bytesMessageK headers)
     else headers)

/-- `Frame.as_string`: returns the wire text
`"%s\n%s\n%s\x00" % (command, headers, body)` together with the mutated
header mapping left behind on the frame object. -/
def as_string (myName : Str) (command : Str) (headers : List (Str × HVal))
    (body : Str) : Str × List (Str × HVal) :=
  let h := asStringHeaders myName headers body
  (command ++ '\n' :: (renderHeaders h ++ '\n' :: (body ++ ['\x00'])), h)

/-- `Frame._getline` on a pending byte stream: read byte by byte until the
buffer ends with `"\x00\n"`, then return the buffer without the final two
characters together with the unread rest of the stream.  `none` models a
read that yields no frame: in non-blocking mode the no-data early return,
in blocking mode a read that never completes. -/
def getline (stream : Str) : Option (Str × Str) := scanPair '\x00' '\n' stream

/-- `Frame.parse_command`: the text before the first newline. -/
def parse_command : Str → Str
  | [] => []
  | c :: rest => if c = '\n' then [] else c :: parse_command rest

/-- Python `line.partition("\n\n")` restricted to the fields the code uses:
the part before the first occurrence, and the part after it when found. -/
def pyPartitionNN (s : Str) : Str × Option Str :=
  match scanPair '\n' '\n' s with
  | some (pre, post) => (pre, some post)
  | none => (s, none)

/-- Python `s.split(sep)` for a single-character separator. -/
def pySplitChar (sep : Char) : Str → List Str
  | [] => [[]]
  | c :: rest =>
    match pySplitChar sep rest with
    | [] => [[]]
    | l :: ls => if c = sep then [] :: l :: ls else (c :: l) :: ls

/-- Python `line.split(":", 1)`: the part before the first colon, and the
part after it when a colon is present. -/
def pySplitOnceColon : Str → Str × Option Str
  | [] => ([], none)
  | c :: rest =>
    if c = ':' then ([], some rest)
    else
      let (a, b) := pySplitOnceColon rest
      (c :: a, b)

/-- Parse errors raised by `parse_frame`: `UnknownBrokerResponseError`
carrying its message, or the `ValueError` raised by `dict(...)` on a header
line without a colon. -/
inductive ParseErr where
  | unknownBrokerResponse (received : Str)
  | valueError
deriving DecidableEq, Repr

/-- One step of `Frame.parse_headers`: `line.split(":", 1)` made into a
key/value pair, `none` when the line has no colon (the `dict(...)` call
then raises `ValueError`). -/
def parseHeaderLine (line : Str) : Option (Str × HVal) :=
  match pySplitOnceColon line with
  | (_, none) => none
  | (k, some v) => some (k, .str v)

/-- The `dict(...)` construction over the split header lines, inserting
each pair in order. -/
def parseHeadersGo : List Str → List (Str × HVal) → Option (List (Str × HVal))
  | [], acc => some acc
  | line :: rest, acc =>
    match parseHeaderLine line with
    | none => none
    | some p => parseHeadersGo rest (dictInsert p.1 p.2 acc)

/-- `Frame.parse_headers`: `dict(line.split(":", 1) for line in s.split("\n"))`. -/
def parse_headers (s : Str) : Option (List (Str × HVal)) :=
  parseHeadersGo (pySplitChar '\n' s) []

/-- The `UnknownBrokerResponseError` message `"Received: (%s)" % line`,
where `line` is the text already stripped of its command. -/
def receivedMsg (rest : Str) : Str := "Received: (".data ++ rest ++ [')']

/-- The pure part of `Frame.parse_frame` applied to the text returned by
`_getline`: split off the command, partition the remainder on the first
blank line, fail when the header block is empty, parse the headers, and
mark the frame binary when `content-length` is among them. -/
def parse_frame_text (line : Str) : Except ParseErr FrameData :=
  let command := parse_command line
  let rest := line.drop (command.length + 1)
  let (headersStr, bodyOpt) := pyPartitionNN rest
  if headersStr = [] then
    .error (.unknownBrokerResponse (receivedMsg rest))
  else
    match parse_headers headersStr with
    | none => .error .valueError
    | some headers =>
      let headers' :=
        if hasKey contentLengthK headers then
          dictInsert bytesMessageK (.bool true) headers
        else headers
      .ok ⟨command, headers', bodyOpt.getD []⟩

/-- `Frame.parse_frame` over a pending byte stream: read one frame's text
with `_getline` (`none` when no text is obtained, matching
`if not line: return`, which also fires on an empty line), then parse it. -/
def parse_frame (stream : Str) : Option (Except ParseErr FrameData × Str) :=
  match getline stream with
  | none => none
  | some (line, rest) => if line = [] then none else some (parse_frame_text line, rest)

/-- `Frame.build_frame`: set command, headers and body; when a receipt is
wanted, set `headers["receipt"] = "%s-%s" % (session.get("session"), stamp)`
with a random integer stamp. -/
def build_frame (session : List (Str × HVal)) (receiptStamp : Nat) (command : Str)
    (headers : List (Str × HVal)) (body : Str) (want_receipt : Bool) : FrameData :=
  if want_receipt then
    let sessVal :=
      match dictLookup sessionK session with
      | some v => renderHVal v
      | none => "None".data
    ⟨command, dictInsert receiptK (.str (sessVal ++ '-' :: natRepr receiptStamp)) headers, body⟩
  else ⟨command, headers, body⟩

/-- Whether a frame carries a `destination` header (the filter in
`IntermediateMessageQueue.put`). -/
def hasDestination (f : FrameData) : Bool := hasKey destinationK f.headers

/-- Demultiplexer state: the pending-message queue (`iqueue`), the
pending-reply queue (`rqueue`), and the transport modelled as the sequence
of frames it will yield.  Queues are FIFO: `put` appends, `get_nowait`
pops the front. -/
structure DState where
  iq : List FrameData
  rq : List FrameData
  stream : List FrameData
deriving DecidableEq, Repr

/-- `IntermediateMessageQueue.put`: frames without a `destination` header
are discarded, every other frame is appended. -/
def iqueuePut (f : FrameData) (iq : List FrameData) : List FrameData :=
  if hasDestination f then iq ++ [f] else iq

/-- `Frame.parse_frame` at the demultiplexer level: yield the next frame
of the transport, `none` when nothing is pending. -/
def nextFrame (s : DState) : Option FrameData × DState :=
  match s.stream with
  | [] => (none, s)
  | f :: rest => (some f, { s with stream := rest })

/-- `IntermediateMessageQueue.get`: pop the queue front, or read the next
frame from the transport when the queue is empty. -/
def iqueueGet (s : DState) : Option FrameData × DState :=
  match s.iq with
  | f :: rest => (some f, { s with iq := rest })
  | [] => nextFrame s

/-- `Frame.get_message`: loop pulling from the message queue (or the
transport); a frame whose command is not MESSAGE is pushed onto the reply
queue.  `none` with the state unchanged models the non-blocking no-data
return (and a blocking call that would suspend).  The fuel bounds the
loop; every iteration consumes a queued or streamed frame. -/
def get_message : Nat → Bool → DState → Option FrameData × DState
  | 0, _, s => (none, s)
  | fuel+1, nb, s =>
    match iqueueGet s with
    | (none, s') => (none, s')
    | (some f, s') =>
      if f.command = msgCmd then (some f, s')
      else get_message fuel nb { s' with rq := s'.rq ++ [f] }

/-- `Frame.get_reply`: return the reply-queue front when present, else
read the next frame from the transport, requeueing it to the message
queue (via the filtering `put`) when it is a MESSAGE and to the reply
queue otherwise, then loop. -/
def get_reply : Nat → Bool → DState → Option FrameData × DState
  | 0, _, s => (none, s)
  | fuel+1, nb, s =>
    match s.rq with
    | f :: rest => (some f, { s with rq := rest })
    | [] =>
      match nextFrame s with
      | (none, s') => (none, s')
      | (some f, s') =>
        if f.command = msgCmd then get_reply fuel nb { s' with iq := iqueuePut f s'.iq }
        else get_reply fuel nb { s' with rq := s'.rq ++ [f] }

/-- Run a sequence of accessor calls in blocking mode: `true` is a
`get_reply` call, `false` a `get_message` call; collect the returned
frames in call order. -/
def runCalls : List Bool → DState → List (Option FrameData) × DState
  | [], s => ([], s)
  | c :: cs, s =>
    let r := if c then get_reply 9 false s else get_message 9 false s
    let rs := runCalls cs r.2
    (r.1 :: rs.1, rs.2)

/-- The grouping the spec asks for (written from the claim, for
comparison): the i-th `get_reply` call returns the i-th reply and the
i-th `get_message` call returns the i-th message, independently of the
interleaving. -/
def expectedOutputs : List Bool → List FrameData → List FrameData → List (Option FrameData)
  | [], _, _ => []
  | true :: cs, rs, ms =>
    match rs with
    | r :: rs' => some r :: expectedOutputs cs rs' ms
    | [] => none :: expectedOutputs cs [] ms
  | false :: cs, rs, ms =>
    match ms with
    | m :: ms' => some m :: expectedOutputs cs rs ms'
    | [] => none :: expectedOutputs cs rs []

/-- `Frame.connect`, reply side: after sending the CONNECT frame the code
stores the headers of `get_reply()` as the session.  The outgoing write
does not touch the reply path, so the session is determined by the frames
the transport yields. -/
def connectSession (stream : List FrameData) : Option (List (Str × HVal)) :=
  (get_reply 9 false ⟨[], [], stream⟩).1.map FrameData.headers

/-- Socket state seen by `_getline`: the blocking-mode flag and the
pending bytes. -/
structure SockState where
  blocking : Bool
  stream : Str
deriving DecidableEq, Repr

/-- `Frame._getline` with its mode side effect: `setblocking(not nb)` on
entry, the byte-at-a-time read, and `setblocking(nb)` in the `finally`
block on every exit path. -/
def getlineWithMode (nb : Bool) (st : SockState) : Option Str × SockState :=
  let during : SockState := { st with blocking := !nb }
  match scanPair '\x00' '\n' during.stream with
  | some (pre, post) => (some pre, { blocking := nb, stream := post })
  | none => (none, { blocking := nb, stream := during.stream })

/-! ### Lemmas about the two-character scanner -/

theorem scanPair_cons (a b c : Char) (s : Str) :
    scanPair a b (c :: s) =
      if c = a ∧ s.head? = some b then some ([], s.tail)
      else (scanPair a b s).map (fun pq => (c :: pq.1, pq.2)) := by
  by_cases hc : c = a ∧ s.head? = some b
  · simp [scanPair, hc]
  · cases hsp : scanPair a b s with
    | none => simp [scanPair, hc, hsp]
    | some pq => simp [scanPair, hc, hsp]

theorem hasPair_cons (a b c : Char) (s : Str) :
    hasPair a b (c :: s) = (decide (c = a ∧ s.head? = some b) || hasPair a b s) := by
  by_cases hc : c = a ∧ s.head? = some b
  · simp [hasPair, hc]
  · simp [hasPair, hc]

theorem hasPair_of_not_mem {a b : Char} {s : Str} (h : b ∉ s) :
    hasPair a b s = false := by
  induction s with
  | nil => rfl
  | cons c s ih =>
    rw [hasPair_cons]
    have h1 : ¬ (c = a ∧ s.head? = some b) := by
      rintro ⟨-, hh⟩
      exact h (List.mem_cons_of_mem _ (List.mem_of_mem_head? (by rw [hh]; rfl)))
    have h2 : hasPair a b s = false := ih (fun hm => h (List.mem_cons_of_mem _ hm))
    simp [h1, h2]

theorem scanPair_eq_none {a b : Char} {s : Str} (h : hasPair a b s = false) :
    scanPair a b s = none := by
  induction s with
  | nil => rfl
  | cons c s ih =>
    rw [hasPair_cons] at h
    simp only [Bool.or_eq_false_iff, decide_eq_false_iff_not] at h
    rw [scanPair_cons, if_neg h.1, ih h.2]
    rfl

theorem scanPair_append {a b : Char} {s t : Str} (h : hasPair a b s = false)
    (hstrad : s.getLast? = some a → t.head? ≠ some b) :
    scanPair a b (s ++ t) = (scanPair a b t).map (fun pq => (s ++ pq.1, pq.2)) := by
  induction s with
  | nil =>
    simp only [List.nil_append]
    cases scanPair a b t <;> rfl
  | cons c s ih =>
    rw [hasPair_cons] at h
    simp only [Bool.or_eq_false_iff, decide_eq_false_iff_not] at h
    have hcond : ¬ (c = a ∧ (s ++ t).head? = some b) := by
      cases s with
      | nil =>
        rintro ⟨hca, hh⟩
        subst hca
        exact hstrad rfl (by simpa using hh)
      | cons d s' =>
        rintro ⟨hca, hh⟩
        exact h.1 ⟨hca, by simpa using hh⟩
    have hstrad' : s.getLast? = some a → t.head? ≠ some b := by
      cases s with
      | nil => intro h'; simp at h'
      | cons d s' => intro h'; exact hstrad (by rw [List.getLast?_cons_cons]; exact h')
    show scanPair a b (c :: (s ++ t)) = _
    rw [scanPair_cons, if_neg hcond, ih h.2 hstrad']
    cases scanPair a b t with
    | none => rfl
    | some pq => rfl

theorem hasPair_append {a b : Char} {s t : Str} (h1 : hasPair a b s = false)
    (h2 : hasPair a b t = false) (hstrad : s.getLast? = some a → t.head? ≠ some b) :
    hasPair a b (s ++ t) = false := by
  induction s with
  | nil => simpa using h2
  | cons c s ih =>
    rw [hasPair_cons] at h1
    simp only [Bool.or_eq_false_iff, decide_eq_false_iff_not] at h1
    have hcond : ¬ (c = a ∧ (s ++ t).head? = some b) := by
      cases s with
      | nil =>
        rintro ⟨hca, hh⟩
        subst hca
        exact hstrad rfl (by simpa using hh)
      | cons d s' =>
        rintro ⟨hca, hh⟩
        exact h1.1 ⟨hca, by simpa using hh⟩
    have hstrad' : s.getLast? = some a → t.head? ≠ some b := by
      cases s with
      | nil => intro h'; simp at h'
      | cons d s' => intro h'; exact hstrad (by rw [List.getLast?_cons_cons]; exact h')
    show hasPair a b (c :: (s ++ t)) = false
    rw [hasPair_cons, decide_eq_false hcond, ih h1.2 hstrad']
    rfl

theorem scanPair_cons_pair (a b : Char) (t : Str) :
    scanPair a b (a :: b :: t) = some ([], t) := by
  rw [scanPair_cons, if_pos ⟨rfl, rfl⟩]
  rfl

/-! ### Lemmas about the header-mapping operations -/

theorem hasKey_true_iff (k : Str) (h : List (Str × HVal)) :
    hasKey k h = true ↔ k ∈ h.map Prod.fst := by
  simp [hasKey, List.any_eq_true, List.mem_map]

theorem hasKey_false_iff (k : Str) (h : List (Str × HVal)) :
    hasKey k h = false ↔ k ∉ h.map Prod.fst := by
  rw [← hasKey_true_iff]
  cases hasKey k h <;> simp

theorem hasKey_cons (k : Str) (p : Str × HVal) (t : List (Str × HVal)) :
    hasKey k (p :: t) = (decide (p.1 = k) || hasKey k t) := by
  simp [hasKey]

theorem dictInsert_of_fresh {k : Str} {h : List (Str × HVal)} (v : HVal)
    (hf : hasKey k h = false) : dictInsert k v h = h ++ [(k, v)] := by
  rw [dictInsert, hf]
  rfl

theorem dictInsert_ne_nil (k : Str) (v : HVal) (h : List (Str × HVal)) :
    dictInsert k v h ≠ [] := by
  rw [dictInsert]
  split
  · rename_i hk
    intro he
    rw [List.map_eq_nil_iff] at he
    subst he
    simp [hasKey] at hk
  · simp

theorem keys_dictInsert (k : Str) (v : HVal) (h : List (Str × HVal)) :
    (dictInsert k v h).map Prod.fst =
      if hasKey k h then h.map Prod.fst else h.map Prod.fst ++ [k] := by
  rw [dictInsert]
  split
  · rw [List.map_map]
    refine List.map_congr_left (fun p hp => ?_)
    by_cases hpk : p.1 = k
    · simp [hpk]
    · simp [hpk]
  · simp

theorem nodup_keys_dictInsert (k : Str) (v : HVal) {h : List (Str × HVal)}
    (hn : (h.map Prod.fst).Nodup) : ((dictInsert k v h).map Prod.fst).Nodup := by
  rw [keys_dictInsert]
  split
  · exact hn
  · rename_i hk
    rw [Bool.not_eq_true, hasKey_false_iff] at hk
    simp only [List.nodup_append, List.nodup_cons]
    refine ⟨hn, by simp, ?_⟩
    intro x hx hxk
    rw [List.mem_singleton] at hxk
    exact hk (hxk ▸ hx)

theorem keys_dictErase (k : Str) (h : List (Str × HVal)) :
    (dictErase k h).map Prod.fst = (h.map Prod.fst).filter (fun x => decide (¬ x = k)) := by
  induction h with
  | nil => rfl
  | cons p t ih =>
    by_cases hpk : p.1 = k
    · simpa [dictErase, List.filter, hpk] using ih
    · simpa [dictErase, List.filter, hpk] using ih

theorem nodup_keys_dictErase (k : Str) {h : List (Str × HVal)}
    (hn : (h.map Prod.fst).Nodup) : ((dictErase k h).map Prod.fst).Nodup := by
  rw [keys_dictErase]
  exact hn.filter _

theorem hasKey_dictErase_self (k : Str) (h : List (Str × HVal)) :
    hasKey k (dictErase k h) = false := by
  rw [hasKey_false_iff, keys_dictErase]
  simp

theorem mem_dictErase {p : Str × HVal} {k : Str} {h : List (Str × HVal)}
    (hp : p ∈ dictErase k h) : p ∈ h := List.mem_of_mem_filter hp

theorem mem_dictInsert {p : Str × HVal} {k : Str} {v : HVal} {h : List (Str × HVal)}
    (hp : p ∈ dictInsert k v h) : p = (k, v) ∨ p ∈ h := by
  rw [dictInsert] at hp
  split at hp
  · rw [List.mem_map] at hp
    obtain ⟨q, hq, rfl⟩ := hp
    by_cases hqk : q.1 = k
    · simp [hqk]
    · simp [hqk, hq]
  · rw [List.mem_append] at hp
    cases hp with
    | inl hh => exact Or.inr hh
    | inr hh => exact Or.inl (by simpa using hh)

theorem hasKey_dictInsert_self (k : Str) (v : HVal) (h : List (Str × HVal)) :
    hasKey k (dictInsert k v h) = true := by
  rw [hasKey_true_iff, keys_dictInsert]
  split
  · rename_i hk
    rw [← hasKey_true_iff]
    exact hk
  · simp

theorem hasKey_dictInsert_ne {k k' : Str} (hne : k ≠ k') (v : HVal)
    (h : List (Str × HVal)) : hasKey k (dictInsert k' v h) = hasKey k h := by
  have hiff : k ∈ (dictInsert k' v h).map Prod.fst ↔ k ∈ h.map Prod.fst := by
    rw [keys_dictInsert]
    split
    · exact Iff.rfl
    · simp [fun hh : k = k' => hne hh]
  cases hk : hasKey k h with
  | true =>
    rw [hasKey_true_iff] at hk ⊢
    exact hiff.mpr hk
  | false =>
    rw [hasKey_false_iff] at hk ⊢
    exact fun hm => hk (hiff.mp hm)

theorem dictLookup_map_replace_self (k : Str) (v : HVal) {t : List (Str × HVal)}
    (hk : hasKey k t = true) :
    dictLookup k (t.map (fun p => if p.1 = k then (k, v) else p)) = some v := by
  induction t with
  | nil => simp [hasKey] at hk
  | cons p t ih =>
    rw [List.map_cons]
    by_cases hpk : p.1 = k
    · rw [if_pos hpk, dictLookup, if_pos rfl]
    · rw [if_neg hpk, dictLookup, if_neg hpk]
      rw [hasKey_cons] at hk
      simp [hpk] at hk
      exact ih hk

theorem dictLookup_append_single_self (k : Str) (v : HVal) {t : List (Str × HVal)}
    (hf : hasKey k t = false) : dictLookup k (t ++ [(k, v)]) = some v := by
  induction t with
  | nil => simp [dictLookup]
  | cons p t ih =>
    rw [hasKey_cons] at hf
    simp only [Bool.or_eq_false_iff, decide_eq_false_iff_not] at hf
    rw [List.cons_append, dictLookup, if_neg hf.1]
    exact ih hf.2

theorem dictLookup_dictInsert_self (k : Str) (v : HVal) (h : List (Str × HVal)) :
    dictLookup k (dictInsert k v h) = some v := by
  rw [dictInsert]
  split
  · rename_i hk
    exact dictLookup_map_replace_self k v hk
  · rename_i hk
    exact dictLookup_append_single_self k v (by simpa using hk)

theorem dictLookup_map_replace_ne {k k' : Str} (hne : k ≠ k') (v : HVal)
    (t : List (Str × HVal)) :
    dictLookup k (t.map (fun p => if p.1 = k' then (k', v) else p)) = dictLookup k t := by
  induction t with
  | nil => rfl
  | cons p t ih =>
    rw [List.map_cons]
    by_cases hpk : p.1 = k'
    · rw [if_pos hpk, dictLookup, dictLookup, if_neg (fun hh : k' = k => hne hh.symm),
        if_neg (fun hh : p.1 = k => hne (hpk ▸ hh).symm)]
      exact ih
    · rw [if_neg hpk, dictLookup, dictLookup]
      by_cases hpkk : p.1 = k
      · rw [if_pos hpkk, if_pos hpkk]
      · rw [if_neg hpkk, if_neg hpkk]
        exact ih

theorem dictLookup_append_single_ne {k k' : Str} (hne : k ≠ k') (v : HVal)
    (t : List (Str × HVal)) : dictLookup k (t ++ [(k', v)]) = dictLookup k t := by
  induction t with
  | nil =>
    rw [List.nil_append]
    show (if k' = k then some v else dictLookup k []) = none
    rw [if_neg (fun hh : k' = k => hne hh.symm)]
    rfl
  | cons p t ih =>
    rw [List.cons_append, dictLookup, dictLookup]
    by_cases hpkk : p.1 = k
    · rw [if_pos hpkk, if_pos hpkk]
    · rw [if_neg hpkk, if_neg hpkk]
      exact ih

theorem dictLookup_dictInsert_ne {k k' : Str} (hne : k ≠ k') (v : HVal)
    (h : List (Str × HVal)) : dictLookup k (dictInsert k' v h) = dictLookup k h := by
  rw [dictInsert]
  split
  · exact dictLookup_map_replace_ne hne v h
  · exact dictLookup_append_single_ne hne v h

/-! ### Lemmas about line splitting and joining -/

/-- Joining lines with single newlines: the inverse image of
`s.split("\n")` used to relate the rendered header block to its parse. -/
def interNL : List Str → Str
  | [] => []
  | [l] => l
  | l :: l' :: ls => l ++ '\n' :: interNL (l' :: ls)

theorem parse_command_append {cmd : Str} (r : Str) (h : '\n' ∉ cmd) :
    parse_command (cmd ++ '\n' :: r) = cmd := by
  induction cmd with
  | nil => simp [parse_command]
  | cons c cs ih =>
    have hc : ¬ c = '\n' := fun hh => h (hh ▸ List.mem_cons_self c cs)
    rw [List.cons_append, parse_command, if_neg hc,
      ih (fun hm => h (List.mem_cons_of_mem _ hm))]

theorem drop_command {cmd : Str} (r : Str) :
    (cmd ++ '\n' :: r).drop (cmd.length + 1) = r := by
  rw [List.append_cons]
  have hl : (cmd ++ ['\n']).length = cmd.length + 1 := by simp
  rw [← hl, List.drop_left]

theorem renderHeaders_eq_interNL {h : List (Str × HVal)} (hne : h ≠ []) :
    renderHeaders h = interNL (h.map headerLine) ++ ['\n'] := by
  induction h with
  | nil => exact absurd rfl hne
  | cons p t ih =>
    cases t with
    | nil => rfl
    | cons q t' =>
      rw [renderHeaders, ih (by simp), List.map_cons, List.map_cons]
      show _ = (headerLine p ++ '\n' :: interNL (headerLine q :: t'.map headerLine)) ++ ['\n']
      rw [List.append_assoc]
      rfl

theorem pySplitChar_ne_nil (sep : Char) (s : Str) : pySplitChar sep s ≠ [] := by
  cases s with
  | nil => simp [pySplitChar]
  | cons c rest =>
    rw [pySplitChar]
    split
    · simp
    · split <;> simp

theorem pySplitChar_no_sep {sep : Char} {l : Str} (h : sep ∉ l) :
    pySplitChar sep l = [l] := by
  induction l with
  | nil => rfl
  | cons c cs ih =>
    rw [pySplitChar, ih (fun hm => h (List.mem_cons_of_mem _ hm))]
    have hc : ¬ c = sep := fun hh => h (hh ▸ List.mem_cons_self c cs)
    simp [hc]

theorem pySplitChar_append_sep {sep : Char} {l : Str} (r : Str) (h : sep ∉ l) :
    pySplitChar sep (l ++ sep :: r) = l :: pySplitChar sep r := by
  induction l with
  | nil =>
    rw [List.nil_append, pySplitChar]
    obtain ⟨x, xs, hx⟩ : ∃ x xs, pySplitChar sep r = x :: xs := by
      cases hs : pySplitChar sep r with
      | nil => exact absurd hs (pySplitChar_ne_nil sep r)
      | cons x xs => exact ⟨x, xs, rfl⟩
    rw [hx]
    simp
  | cons c cs ih =>
    rw [List.cons_append, pySplitChar, ih (fun hm => h (List.mem_cons_of_mem _ hm))]
    have hc : ¬ c = sep := fun hh => h (hh ▸ List.mem_cons_self c cs)
    simp [hc]

theorem pySplitChar_interNL {L : List Str} (hL : ∀ l ∈ L, '\n' ∉ l) (hne : L ≠ []) :
    pySplitChar '\n' (interNL L) = L := by
  induction L with
  | nil => exact absurd rfl hne
  | cons l ls ih =>
    cases ls with
    | nil => exact pySplitChar_no_sep (hL l (List.mem_cons_self _ _))
    | cons l' ls' =>
      rw [interNL, pySplitChar_append_sep _ (hL l (List.mem_cons_self _ _)),
        ih (fun x hx => hL x (List.mem_cons_of_mem _ hx)) (by simp)]

theorem pySplitOnceColon_append {k : Str} (v : Str) (h : ':' ∉ k) :
    pySplitOnceColon (k ++ ':' :: v) = (k, some v) := by
  induction k with
  | nil => simp [pySplitOnceColon]
  | cons c cs ih =>
    rw [List.cons_append, pySplitOnceColon,
      if_neg (fun hh : c = ':' => h (hh ▸ List.mem_cons_self c cs)),
      ih (fun hm => h (List.mem_cons_of_mem _ hm))]

/-! ### Digit facts for the content-length value -/

theorem natReprAux_chars (P : Char → Prop) (hP : ∀ m, m < 10 → P (digitChar m)) :
    ∀ (fuel n : Nat) (acc : Str), (∀ c ∈ acc, P c) → ∀ c ∈ natReprAux fuel n acc, P c := by
  intro fuel
  induction fuel with
  | zero => intro n acc hacc c hc; exact hacc c hc
  | succ fuel ih =>
    intro n acc hacc c hc
    rw [natReprAux] at hc
    split at hc
    · rename_i hn
      rcases List.mem_cons.mp hc with hh | hh
      · exact hh ▸ hP n hn
      · exact hacc c hh
    · refine ih (n / 10) (digitChar (n % 10) :: acc) ?_ c hc
      intro d hd
      rcases List.mem_cons.mp hd with hh | hh
      · exact hh ▸ hP (n % 10) (Nat.mod_lt n (by omega))
      · exact hacc d hh

theorem natRepr_chars (n : Nat) : ∀ c ∈ natRepr n, ¬ c = '\n' ∧ ¬ c = '\x00' := by
  refine natReprAux_chars _ ?_ (n+1) n [] (by simp)
  intro m hm
  interval_cases m <;> exact ⟨by decide, by decide⟩

/-! ### Safety conditions for round-trippable frames -/

/-- Keys that survive the round trip: no colon (so the parse split returns
the whole key) and no newline (so the line structure is preserved). -/
def safeKey (k : Str) : Prop := ':' ∉ k ∧ '\n' ∉ k

/-- Values whose rendering survives the round trip: no newline, and not
ending in a null byte (which would complete the reader's terminator with
the following newline). -/
def safeVal (v : HVal) : Prop :=
  '\n' ∉ renderHVal v ∧ (renderHVal v).getLast? ≠ some '\x00'

def safeEntry (p : Str × HVal) : Prop := safeKey p.1 ∧ safeVal p.2

instance (k : Str) : Decidable (safeKey k) := by
  unfold safeKey
  infer_instance

instance (v : HVal) : Decidable (safeVal v) := by
  unfold safeVal
  infer_instance

instance (p : Str × HVal) : Decidable (safeEntry p) := by
  unfold safeEntry
  infer_instance

theorem append_cons_ne_nil (l : Str) (c : Char) (r : Str) : l ++ c :: r ≠ [] := by
  cases l <;> simp

theorem head?_ne_of_not_mem {c : Char} {l : Str} (h : c ∉ l) : l.head? ≠ some c :=
  fun hh => h (List.mem_of_mem_head? (by rw [hh]; rfl))

theorem getLast?_ne_of_not_mem {c : Char} {l : Str} (h : c ∉ l) : l.getLast? ≠ some c :=
  fun hh => h (List.mem_of_mem_getLast? (by rw [hh]; rfl))

theorem getLast?_append_cons (l : Str) (c : Char) (r : Str) :
    (l ++ c :: r).getLast? = (c :: r).getLast? := by
  induction l with
  | nil => rfl
  | cons d l ih =>
    rw [List.cons_append]
    cases hl : l ++ c :: r with
    | nil => exact absurd hl (append_cons_ne_nil l c r)
    | cons e es =>
      have h2 : (d :: (l ++ c :: r)).getLast? = (l ++ c :: r).getLast? := by
        rw [hl]
        exact List.getLast?_cons_cons
      rw [← hl, h2, ih]

theorem headerLine_not_nl {p : Str × HVal} (hp : safeEntry p) : '\n' ∉ headerLine p := by
  intro hm
  rw [headerLine] at hm
  rcases List.mem_append.mp hm with hm | hm
  · exact hp.1.2 hm
  · rcases List.mem_cons.mp hm with hh | hh
    · exact absurd hh (by decide)
    · exact hp.2.1 hh

theorem headerLine_ne_nil (p : Str × HVal) : headerLine p ≠ [] :=
  append_cons_ne_nil _ _ _

theorem headerLine_getLast_ne_nul {p : Str × HVal} (hp : safeEntry p) :
    (headerLine p).getLast? ≠ some '\x00' := by
  rw [headerLine, getLast?_append_cons]
  cases hv : renderHVal p.2 with
  | nil => decide
  | cons c cs =>
    rw [List.getLast?_cons_cons]
    have hpv := hp.2.2
    rw [hv] at hpv
    exact hpv

theorem interNL_facts {L : List Str} (hL : ∀ l ∈ L, '\n' ∉ l ∧ l ≠ []) (hne : L ≠ []) :
    hasPair '\n' '\n' (interNL L) = false ∧ (interNL L).getLast? ≠ some '\n' ∧
      (interNL L).head? ≠ some '\n' ∧ interNL L ≠ [] := by
  induction L with
  | nil => exact absurd rfl hne
  | cons l ls ih =>
    cases ls with
    | nil =>
      have hl := hL l (List.mem_cons_self _ _)
      exact ⟨hasPair_of_not_mem hl.1, getLast?_ne_of_not_mem hl.1,
        head?_ne_of_not_mem hl.1, hl.2⟩
    | cons l' ls' =>
      have hl := hL l (List.mem_cons_self _ _)
      have ihr := ih (fun x hx => hL x (List.mem_cons_of_mem _ hx)) (by simp)
      have hIL : interNL (l :: l' :: ls') = l ++ '\n' :: interNL (l' :: ls') := rfl
      rw [hIL]
      set I := interNL (l' :: ls') with hI
      have hIne : I ≠ [] := ihr.2.2.2
      have htail : hasPair '\n' '\n' ('\n' :: I) = false := by
        rw [hasPair_cons, ihr.1]
        have hhd : ¬ I.head? = some '\n' := ihr.2.2.1
        simp [hhd]
      refine ⟨hasPair_append (hasPair_of_not_mem hl.1) htail
        (fun hlast => absurd hlast (getLast?_ne_of_not_mem hl.1)), ?_, ?_, ?_⟩
      · rw [getLast?_append_cons]
        obtain ⟨i, is, hIc⟩ : ∃ i is, I = i :: is := by
          cases hII : I with
          | nil => exact absurd hII hIne
          | cons i is => exact ⟨i, is, rfl⟩
        have h2 : ('\n' :: I).getLast? = I.getLast? := by
          rw [hIc]
          exact List.getLast?_cons_cons
        rw [h2]
        exact ihr.2.1
      · cases l with
        | nil => exact absurd rfl hl.2
        | cons c cs =>
          intro hh
          rw [List.cons_append, List.head?_cons, Option.some_inj] at hh
          refine hl.1 ?_
          rw [← hh]
          exact List.mem_cons_self c cs
      · exact append_cons_ne_nil _ _ _

theorem renderHeaders_facts {h : List (Str × HVal)} (hh : ∀ p ∈ h, safeEntry p) :
    hasPair '\x00' '\n' (renderHeaders h) = false ∧
      (h ≠ [] → (renderHeaders h).getLast? = some '\n') := by
  induction h with
  | nil => exact ⟨rfl, fun hc => absurd rfl hc⟩
  | cons p t ih =>
    have hp := hh p (List.mem_cons_self _ _)
    have ihr := ih (fun q hq => hh q (List.mem_cons_of_mem _ hq))
    have hRL : renderHeaders (p :: t) = headerLine p ++ '\n' :: renderHeaders t := rfl
    rw [hRL]
    have htail : hasPair '\x00' '\n' ('\n' :: renderHeaders t) = false := by
      rw [hasPair_cons, ihr.1]
      have : ¬ ('\n' = '\x00' ∧ (renderHeaders t).head? = some '\n') := fun hc =>
        absurd hc.1 (by decide)
      simp [this]
    refine ⟨hasPair_append (hasPair_of_not_mem (headerLine_not_nl hp)) htail
      (fun hlast => absurd hlast (headerLine_getLast_ne_nul hp)), fun _ => ?_⟩
    cases t with
    | nil =>
      show (headerLine p ++ ['\n']).getLast? = some '\n'
      exact List.getLast?_concat _
    | cons q t' =>
      rw [getLast?_append_cons]
      have hrne : renderHeaders (q :: t') ≠ [] := append_cons_ne_nil _ _ _
      obtain ⟨i, is, hIc⟩ : ∃ i is, renderHeaders (q :: t') = i :: is := by
        cases hrr : renderHeaders (q :: t') with
        | nil => exact absurd hrr hrne
        | cons i is => exact ⟨i, is, rfl⟩
      have h2 : ('\n' :: renderHeaders (q :: t')).getLast? =
          (renderHeaders (q :: t')).getLast? := by
        rw [hIc]
        exact List.getLast?_cons_cons
      rw [h2]
      exact ihr.2 (by simp)

/-! ### Parsing the rendered header block -/

/-- The entry a header entry becomes after a round trip: the value is
re-read as the string it was rendered to. -/
def strEntry (p : Str × HVal) : Str × HVal := (p.1, .str (renderHVal p.2))

theorem parseHeaderLine_headerLine {p : Str × HVal} (hk : ':' ∉ p.1) :
    parseHeaderLine (headerLine p) = some (strEntry p) := by
  rw [parseHeaderLine, headerLine, pySplitOnceColon_append _ hk]
  rfl

theorem parseHeadersGo_spec :
    ∀ (ps acc : List (Str × HVal)), (∀ p ∈ ps, ':' ∉ p.1) →
    (acc.map Prod.fst ++ ps.map Prod.fst).Nodup →
    parseHeadersGo (ps.map headerLine) acc = some (acc ++ ps.map strEntry) := by
  intro ps
  induction ps with
  | nil =>
    intro acc _ _
    simp [parseHeadersGo]
  | cons p t ih =>
    intro acc hcol hnd
    rw [List.map_cons, parseHeadersGo,
      parseHeaderLine_headerLine (hcol p (List.mem_cons_self _ _))]
    show parseHeadersGo (t.map headerLine) (dictInsert p.1 (.str (renderHVal p.2)) acc) = _
    have hfresh : hasKey p.1 acc = false := by
      rw [hasKey_false_iff]
      intro hmem
      rw [List.map_cons] at hnd
      rw [List.nodup_append] at hnd
      exact hnd.2.2 hmem (List.mem_cons_self _ _)
    rw [dictInsert_of_fresh _ hfresh]
    have hnd' : ((acc ++ [(p.1, HVal.str (renderHVal p.2))]).map Prod.fst ++
        t.map Prod.fst).Nodup := by
      rw [List.map_append, List.append_assoc]
      rw [List.map_cons] at hnd
      simpa using hnd
    have hres := ih (acc ++ [(p.1, .str (renderHVal p.2))])
      (fun q hq => hcol q (List.mem_cons_of_mem _ hq)) hnd'
    rw [hres, List.map_cons, List.append_assoc]
    rfl

theorem parse_headers_spec {ps : List (Str × HVal)} (hcol : ∀ p ∈ ps, ':' ∉ p.1)
    (hnl : ∀ p ∈ ps, '\n' ∉ headerLine p) (hnd : (ps.map Prod.fst).Nodup)
    (hne : ps ≠ []) :
    parse_headers (interNL (ps.map headerLine)) = some (ps.map strEntry) := by
  rw [parse_headers, pySplitChar_interNL (fun l hl => ?_) (by simpa using hne)]
  · have := parseHeadersGo_spec ps [] hcol (by simpa using hnd)
    simpa using this
  · rw [List.mem_map] at hl
    obtain ⟨q, hq, rfl⟩ := hl
    exact hnl q hq

/-! ### The serialize/parse round trip -/

theorem hasKey_map_strEntry (k : Str) (h : List (Str × HVal)) :
    hasKey k (h.map strEntry) = hasKey k h := by
  rw [hasKey, hasKey, List.any_map]
  rfl

/-- The wire text produced by `as_string` never satisfies the reader's
terminator on its own: scanning it for `"\x00\n"` fails, because the text
ends with the bare null byte. -/
theorem getline_as_string_none {myName cmd body : Str} {h : List (Str × HVal)}
    (hcmdNL : '\n' ∉ cmd) (hcmdEnd : cmd.getLast? ≠ some '\x00')
    (hsafe : ∀ p ∈ asStringHeaders myName h body, safeEntry p)
    (hbody : hasPair '\x00' '\n' body = false) :
    getline (as_string myName cmd h body).1 = none := by
  set h' := asStringHeaders myName h body with hh'
  have hne : h' ≠ [] := by
    rw [hh', asStringHeaders]
    exact dictInsert_ne_nil _ _ _
  have hRH := renderHeaders_facts hsafe
  have hnb : hasPair '\x00' '\n' ('\n' :: (body ++ ['\x00'])) = false := by
    have hb2 : hasPair '\x00' '\n' (body ++ ['\x00']) = false := by
      refine hasPair_append hbody rfl ?_
      intro _ hc
      simp at hc
    rw [hasPair_cons, hb2]
    simp
  have hmid : hasPair '\x00' '\n' (renderHeaders h' ++ '\n' :: (body ++ ['\x00'])) = false := by
    refine hasPair_append hRH.1 hnb ?_
    intro hlast
    rw [hRH.2 hne] at hlast
    simp at hlast
  have hwire : hasPair '\x00' '\n'
      (cmd ++ '\n' :: (renderHeaders h' ++ '\n' :: (body ++ ['\x00']))) = false := by
    refine hasPair_append (hasPair_of_not_mem hcmdNL) ?_ (fun hlast => absurd hlast hcmdEnd)
    rw [hasPair_cons, hmid]
    simp
  exact scanPair_eq_none hwire

/-- Round trip through the reader and parser when a newline follows the
serialized frame on the stream: the reader consumes everything up to the
`"\x00\n"` pair, and the parser reproduces the command, the mutated header
mapping (values re-read as the strings they were rendered to), and the
body. -/
theorem parse_of_serialized (myName cmd body : Str) (h : List (Str × HVal))
    (hcmdNL : '\n' ∉ cmd) (hcmdEnd : cmd.getLast? ≠ some '\x00')
    (hsafe : ∀ p ∈ asStringHeaders myName h body, safeEntry p)
    (hnodup : ((asStringHeaders myName h body).map Prod.fst).Nodup)
    (hbody : hasPair '\x00' '\n' body = false) :
    parse_frame ((as_string myName cmd h body).1 ++ ['\n']) =
      some (.ok ⟨cmd,
        (if hasKey contentLengthK (asStringHeaders myName h body) then
          dictInsert bytesMessageK (.bool true)
            ((asStringHeaders myName h body).map strEntry)
         else (asStringHeaders myName h body).map strEntry),
        body⟩, []) := by
  set h' := asStringHeaders myName h body with hh'
  have hne : h' ≠ [] := by
    rw [hh', asStringHeaders]
    exact dictInsert_ne_nil _ _ _
  have hRH := renderHeaders_facts hsafe
  have hlines : ∀ l ∈ h'.map headerLine, '\n' ∉ l ∧ l ≠ [] := by
    intro l hl
    rw [List.mem_map] at hl
    obtain ⟨q, hq, rfl⟩ := hl
    exact ⟨headerLine_not_nl (hsafe q hq), headerLine_ne_nil q⟩
  have hInt := interNL_facts hlines (by simpa using hne)
  -- the text before the terminator
  have hpre : hasPair '\x00' '\n' (cmd ++ '\n' :: (renderHeaders h' ++ '\n' :: body)) = false := by
    have hnb : hasPair '\x00' '\n' ('\n' :: body) = false := by
      rw [hasPair_cons, hbody]
      simp
    have hmid : hasPair '\x00' '\n' (renderHeaders h' ++ '\n' :: body) = false := by
      refine hasPair_append hRH.1 hnb ?_
      intro hlast
      rw [hRH.2 hne] at hlast
      simp at hlast
    refine hasPair_append (hasPair_of_not_mem hcmdNL) ?_ (fun hlast => absurd hlast hcmdEnd)
    rw [hasPair_cons, hmid]
    simp
  have hinput : (as_string myName cmd h body).1 ++ ['\n'] =
      (cmd ++ '\n' :: (renderHeaders h' ++ '\n' :: body)) ++ '\x00' :: '\n' :: ([] : Str) := by
    show (cmd ++ '\n' :: (renderHeaders h' ++ '\n' :: (body ++ ['\x00']))) ++ ['\n'] = _
    simp
  have hscan : getline ((as_string myName cmd h body).1 ++ ['\n']) =
      some (cmd ++ '\n' :: (renderHeaders h' ++ '\n' :: body), []) := by
    rw [getline, hinput, scanPair_append hpre (fun _ hc => by simp at hc), scanPair_cons_pair]
    simp
  have hpc : parse_command (cmd ++ '\n' :: (renderHeaders h' ++ '\n' :: body)) = cmd :=
    parse_command_append _ hcmdNL
  have hdrop : (cmd ++ '\n' :: (renderHeaders h' ++ '\n' :: body)).drop (cmd.length + 1) =
      renderHeaders h' ++ '\n' :: body := drop_command _
  have hsplit : pyPartitionNN (renderHeaders h' ++ '\n' :: body) =
      (interNL (h'.map headerLine), some body) := by
    rw [renderHeaders_eq_interNL hne, pyPartitionNN]
    have hre : (interNL (h'.map headerLine) ++ ['\n']) ++ '\n' :: body =
        interNL (h'.map headerLine) ++ '\n' :: '\n' :: body := by
      simp
    rw [hre, scanPair_append hInt.1 (fun hlast => absurd hlast hInt.2.1), scanPair_cons_pair]
    simp
  have hph : parse_headers (interNL (h'.map headerLine)) = some (h'.map strEntry) := by
    refine parse_headers_spec (fun p hp => (hsafe p hp).1.1)
      (fun p hp => headerLine_not_nl (hsafe p hp)) hnodup hne
  rw [parse_frame, hscan]
  show (if cmd ++ '\n' :: (renderHeaders h' ++ '\n' :: body) = ([] : Str) then none
    else some (parse_frame_text (cmd ++ '\n' :: (renderHeaders h' ++ '\n' :: body)),
      ([] : Str))) = _
  rw [if_neg (append_cons_ne_nil _ _ _)]
  refine congrArg some (congrArg (fun x => (x, ([] : Str))) ?_)
  rw [parse_frame_text]
  simp only [hpc, hdrop, hsplit]
  rw [if_neg hInt.2.2.2, hph]
  simp only [hasKey_map_strEntry]
  rfl

/-! ### Claim C1 -/

/-- Claim C1, counterexample: the wire form of a concrete built frame
(command CONNECT, empty headers, empty body, host 127.0.0.1) does not end
with the two-byte sequence null byte + newline, and the byte-stream reader
finds no terminator in it at all, refuting the claim that every serialized
frame ends with that sequence and is readable back. -/
theorem claim1_counterexample :
    (['\x00', '\n'] : Str).isSuffixOf
        (as_string "127.0.0.1".data "CONNECT".data [] []).1 = false ∧
      getline (as_string "127.0.0.1".data "CONNECT".data [] []).1 = none := by
  constructor
  · decide
  · decide

/-- Claim C1, amended: the emitted wire form ends with a single null byte
and nothing after it, while the reader scans for null byte + newline; the
serialized frame alone therefore yields nothing to the reader, and it is
read back (and parses to the frame) exactly when a newline follows it on
the stream. -/
theorem claim1_amended (myName cmd body : Str) (h : List (Str × HVal))
    (hcmdNL : '\n' ∉ cmd) (hcmdEnd : cmd.getLast? ≠ some '\x00')
    (hsafe : ∀ p ∈ asStringHeaders myName h body, safeEntry p)
    (hnodup : ((asStringHeaders myName h body).map Prod.fst).Nodup)
    (hbody : hasPair '\x00' '\n' body = false) :
    (as_string myName cmd h body).1.getLast? = some '\x00' ∧
      getline (as_string myName cmd h body).1 = none ∧
      parse_frame ((as_string myName cmd h body).1 ++ ['\n']) =
        some (.ok ⟨cmd,
          (if hasKey contentLengthK (asStringHeaders myName h body) then
            dictInsert bytesMessageK (.bool true)
              ((asStringHeaders myName h body).map strEntry)
           else (asStringHeaders myName h body).map strEntry),
          body⟩, []) := by
  refine ⟨?_, getline_as_string_none hcmdNL hcmdEnd hsafe hbody,
    parse_of_serialized myName cmd body h hcmdNL hcmdEnd hsafe hnodup hbody⟩
  show (cmd ++ '\n' :: (renderHeaders (asStringHeaders myName h body) ++ '\n' ::
    (body ++ ['\x00']))).getLast? = some '\x00'
  rw [getLast?_append_cons]
  have h1 : (body ++ ['\x00']).getLast? = some '\x00' := List.getLast?_concat _
  have h2 : ('\n' :: (body ++ ['\x00'])).getLast? = some '\x00' := by
    show (['\n'] ++ (body ++ ['\x00'])).getLast? = some '\x00'
    rw [List.getLast?_append, h1]
    rfl
  have h3 : (renderHeaders (asStringHeaders myName h body) ++ '\n' ::
      (body ++ ['\x00'])).getLast? = some '\x00' := by
    rw [getLast?_append_cons, h2]
  show (['\n'] ++ (renderHeaders (asStringHeaders myName h body) ++ '\n' ::
    (body ++ ['\x00']))).getLast? = some '\x00'
  rw [List.getLast?_append, h3]
  rfl

/-- Claim C1, witness for the amended theorem at a concrete frame. -/
theorem claim1_witness :
    (as_string "127.0.0.1".data "CONNECT".data [] []).1.getLast? = some '\x00' ∧
      getline (as_string "127.0.0.1".data "CONNECT".data [] []).1 = none ∧
      parse_frame ((as_string "127.0.0.1".data "CONNECT".data [] []).1 ++ ['\n']) =
        some (.ok ⟨"CONNECT".data,
          (if hasKey contentLengthK (asStringHeaders "127.0.0.1".data [] []) then
            dictInsert bytesMessageK (.bool true)
              ((asStringHeaders "127.0.0.1".data [] []).map strEntry)
           else (asStringHeaders "127.0.0.1".data [] []).map strEntry),
          []⟩, []) :=
  claim1_amended "127.0.0.1".data "CONNECT".data [] []
    (by decide) (by decide) (by decide) (by decide) (by decide)

/-! ### Claim C2 -/

/-- Whether a parse outcome is the malformed-broker-response error. -/
def isUBR : Except ParseErr FrameData → Bool
  | .error (.unknownBrokerResponse _) => true
  | _ => false

instance : DecidableEq (Except ParseErr FrameData) := fun a b =>
  match a, b with
  | .error x, .error y => decidable_of_iff (x = y) (by simp)
  | .ok x, .ok y => decidable_of_iff (x = y) (by simp)
  | .error _, .ok _ => isFalse (by simp)
  | .ok _, .error _ => isFalse (by simp)

/-- Claim C2, counterexample: the raw text "MESSAGE\nfoo:bar" has no
blank-line separator, yet `parse_frame` does not raise the
malformed-broker-response error: it parses the text successfully with
header block "foo:bar" and empty body. -/
theorem claim2_counterexample :
    parse_frame_text "MESSAGE\nfoo:bar".data =
      .ok ⟨"MESSAGE".data, [("foo".data, .str "bar".data)], []⟩ := by
  decide

/-- Claim C2, amended: the malformed-broker-response error is raised
exactly when the header block is empty, that is, when the text after the
command line is empty or starts with a blank line (`if not headers_str`),
not when the blank-line separator is missing; and the error carries the
text after the command line (the rebound `line`), not the full original
text. -/
theorem claim2_amended (raw : Str) :
    isUBR (parse_frame_text raw) =
        decide ((pyPartitionNN (raw.drop ((parse_command raw).length + 1))).1 = []) ∧
      ((pyPartitionNN (raw.drop ((parse_command raw).length + 1))).1 = [] →
        parse_frame_text raw =
          .error (.unknownBrokerResponse
            (receivedMsg (raw.drop ((parse_command raw).length + 1))))) := by
  rcases hpp : pyPartitionNN (raw.drop ((parse_command raw).length + 1)) with ⟨hs, bo⟩
  by_cases hE : hs = []
  · subst hE
    constructor
    · simp [parse_frame_text, hpp, isUBR]
    · intro _
      simp [parse_frame_text, hpp]
  · constructor
    · cases hH : parse_headers hs with
      | none => simp [parse_frame_text, hpp, hE, hH, isUBR]
      | some headers => simp [parse_frame_text, hpp, hE, hH, isUBR]
    · intro hcon
      exact absurd hcon hE

/-- Claim C2, witness for the amended theorem at the raw text "MESSAGE"
(empty remainder after the command, hence empty header block). -/
theorem claim2_witness :
    isUBR (parse_frame_text "MESSAGE".data) = true ∧
      parse_frame_text "MESSAGE".data =
        .error (.unknownBrokerResponse (receivedMsg [])) := by
  constructor
  · rw [(claim2_amended "MESSAGE".data).1]
    decide
  · have h := (claim2_amended "MESSAGE".data).2 (by decide)
    rw [h]
    decide

/-! ### Claim C3 -/

/-- Header entries as supplied by a caller: plain string values. -/
def injStr (p : Str × Str) : Str × HVal := (p.1, .str p.2)

/-- Claim C3, counterexample: a frame satisfying all the conditions of the
claim (command SEND without newlines, colon-free key, newline-free value,
body without the two-byte terminator sequence) whose serialization,
delivered over the transport exactly as emitted, is never read back: the
reader finds no terminator, so parsing yields no frame at all. -/
theorem claim3_counterexample :
    parse_frame (as_string "127.0.0.1".data "SEND".data
      [("foo".data, HVal.str "bar".data)] "hello".data).1 = none := by
  decide

/-- Claim C3, amended: the round trip holds once a newline follows the
serialized frame on the stream (the reader needs the null + newline pair),
and with the hypotheses strengthened to exclude the further inputs the
original conditions let through: keys must also be newline-free, command
and values must not end in a null byte, the host name must be clean, and
the reserved keys (x-client, bytes_message, content-length) must not be
among the supplied keys.  Then parsing returns the same command, the same
headers followed by the injected x-client entry, and the same body. -/
theorem claim3_amended (myName cmd body : Str) (headers : List (Str × Str))
    (hcmdNL : '\n' ∉ cmd) (hcmdEnd : cmd.getLast? ≠ some '\x00')
    (hkeys : ∀ p ∈ headers, ':' ∉ p.1 ∧ '\n' ∉ p.1)
    (hvals : ∀ p ∈ headers, '\n' ∉ p.2 ∧ p.2.getLast? ≠ some '\x00')
    (hnameNL : '\n' ∉ myName) (hnameEnd : myName.getLast? ≠ some '\x00')
    (hnodup : (headers.map Prod.fst).Nodup)
    (hxc : xClientK ∉ headers.map Prod.fst)
    (hbm : bytesMessageK ∉ headers.map Prod.fst)
    (hcl : contentLengthK ∉ headers.map Prod.fst)
    (hbody : hasPair '\x00' '\n' body = false) :
    parse_frame ((as_string myName cmd (headers.map injStr) body).1 ++ ['\n']) =
      some (.ok ⟨cmd, headers.map injStr ++ [(xClientK, .str myName)], body⟩, []) := by
  have hkm : (headers.map injStr).map Prod.fst = headers.map Prod.fst := by
    rw [List.map_map]
    rfl
  have hbmh : hasKey bytesMessageK (headers.map injStr) = false := by
    rw [hasKey_false_iff, hkm]
    exact hbm
  have hxch : hasKey xClientK (headers.map injStr) = false := by
    rw [hasKey_false_iff, hkm]
    exact hxc
  have hash : asStringHeaders myName (headers.map injStr) body =
      headers.map injStr ++ [(xClientK, .str myName)] := by
    rw [asStringHeaders, hbmh]
    simp only [Bool.false_eq_true, if_false]
    exact dictInsert_of_fresh _ hxch
  have hsafe : ∀ p ∈ asStringHeaders myName (headers.map injStr) body, safeEntry p := by
    rw [hash]
    intro p hp
    rcases List.mem_append.mp hp with hm | hm
    · rw [List.mem_map] at hm
      obtain ⟨q, hq, rfl⟩ := hm
      exact ⟨⟨(hkeys q hq).1, (hkeys q hq).2⟩, ⟨(hvals q hq).1, (hvals q hq).2⟩⟩
    · rw [List.mem_singleton] at hm
      subst hm
      refine ⟨⟨?_, ?_⟩, hnameNL, hnameEnd⟩
      · show ':' ∉ xClientK
        decide
      · show '\n' ∉ xClientK
        decide
  have hnodup' : ((asStringHeaders myName (headers.map injStr) body).map Prod.fst).Nodup := by
    rw [hash, List.map_append, hkm]
    rw [List.nodup_append]
    refine ⟨hnodup, by simp, ?_⟩
    intro x hx hxs
    simp only [List.map_cons, List.map_nil, List.mem_singleton] at hxs
    subst hxs
    exact hxc hx
  have hmaster := parse_of_serialized myName cmd body (headers.map injStr)
    hcmdNL hcmdEnd hsafe hnodup' hbody
  have hclh : hasKey contentLengthK (asStringHeaders myName (headers.map injStr) body)
      = false := by
    rw [hash, hasKey_false_iff, List.map_append, hkm]
    intro hmem
    rcases List.mem_append.mp hmem with hm | hm
    · exact hcl hm
    · simp only [List.map_cons, List.map_nil, List.mem_singleton] at hm
      exact absurd hm (by decide)
  rw [hclh] at hmaster
  simp only [Bool.false_eq_true, if_false] at hmaster
  rw [hash, List.map_append, List.map_map] at hmaster
  exact hmaster

/-- Claim C3, witness for the amended theorem at a concrete frame. -/
theorem claim3_witness :
    parse_frame ((as_string "127.0.0.1".data "SEND".data
        ([("foo".data, "bar".data)].map injStr) "hello".data).1 ++ ['\n']) =
      some (.ok ⟨"SEND".data,
        [("foo".data, "bar".data)].map injStr ++ [(xClientK, .str "127.0.0.1".data)],
        "hello".data⟩, []) :=
  claim3_amended "127.0.0.1".data "SEND".data "hello".data [("foo".data, "bar".data)]
    (by decide) (by decide) (by decide) (by decide) (by decide) (by decide)
    (by decide) (by decide) (by decide) (by decide) (by decide)

/-! ### Claim C4 -/

/-- Claim C4: with the transport yielding REPLY1, MESSAGE1, REPLY2,
MESSAGE2 (replies not MESSAGE frames, messages carrying a destination
header), any interleaving of two `get_reply` and two `get_message` calls
returns the replies in order to the reply calls and the messages in order
to the message calls; misfiled frames are requeued, not lost. -/
theorem claim4_demux_grouping (R1 R2 M1 M2 : FrameData)
    (hR1 : ¬ R1.command = msgCmd) (hR2 : ¬ R2.command = msgCmd)
    (hM1 : M1.command = msgCmd) (hM2 : M2.command = msgCmd)
    (hD1 : hasDestination M1 = true) (hD2 : hasDestination M2 = true) :
    ∀ calls : List Bool, calls.length = 4 → calls.count true = 2 →
      (runCalls calls ⟨[], [], [R1, M1, R2, M2]⟩).1 =
        expectedOutputs calls [R1, R2] [M1, M2] := by
  intro calls hlen hcnt
  rcases calls with _ | ⟨a, calls⟩
  · simp at hlen
  rcases calls with _ | ⟨b, calls⟩
  · simp at hlen
  rcases calls with _ | ⟨c, calls⟩
  · simp at hlen
  rcases calls with _ | ⟨d, calls⟩
  · simp at hlen
  rcases calls with _ | ⟨e, calls⟩
  · cases a <;> cases b <;> cases c <;> cases d <;>
      first
        | (exfalso; simp [List.count_cons] at hcnt; done)
        | simp [runCalls, get_reply, get_message, iqueueGet, nextFrame, iqueuePut,
            expectedOutputs, hR1, hR2, hM1, hM2, hD1, hD2]
  · simp at hlen

/-- Claim C4, witness at concrete frames and the call order
reply, message, reply, message. -/
theorem claim4_witness :
    (runCalls [true, false, true, false]
        ⟨[], [], [⟨"RECEIPT".data, [], []⟩,
          ⟨"MESSAGE".data, [(destinationK, .str "/q".data)], "m1".data⟩,
          ⟨"CONNECTED".data, [], []⟩,
          ⟨"MESSAGE".data, [(destinationK, .str "/q".data)], "m2".data⟩]⟩).1 =
      expectedOutputs [true, false, true, false]
        [⟨"RECEIPT".data, [], []⟩, ⟨"CONNECTED".data, [], []⟩]
        [⟨"MESSAGE".data, [(destinationK, .str "/q".data)], "m1".data⟩,
          ⟨"MESSAGE".data, [(destinationK, .str "/q".data)], "m2".data⟩] :=
  claim4_demux_grouping _ _ _ _ (by decide) (by decide) (by decide) (by decide)
    (by decide) (by decide) [true, false, true, false] (by decide) (by decide)

/-! ### Claim C5 -/

theorem iqueuePut_invariant {f : FrameData} {iq : List FrameData}
    (h : ∀ g ∈ iq, hasDestination g = true) :
    ∀ g ∈ iqueuePut f iq, hasDestination g = true := by
  intro g hg
  rw [iqueuePut] at hg
  split at hg
  · rcases List.mem_append.mp hg with hm | hm
    · exact h g hm
    · rw [List.mem_singleton] at hm
      subst hm
      assumption
  · exact h g hg

theorem get_message_iq_invariant :
    ∀ (fuel : Nat) (nb : Bool) (s : DState), (∀ g ∈ s.iq, hasDestination g = true) →
      ∀ g ∈ (get_message fuel nb s).2.iq, hasDestination g = true := by
  intro fuel
  induction fuel with
  | zero => exact fun nb s h => h
  | succ n ih =>
    intro nb s h
    rw [get_message]
    cases hiq : s.iq with
    | cons f rest =>
      have hget : iqueueGet s = (some f, { s with iq := rest }) := by
        rw [iqueueGet, hiq]
      have hrest : ∀ g ∈ rest, hasDestination g = true := by
        intro g hg
        exact h g (by rw [hiq]; exact List.mem_cons_of_mem _ hg)
      simp only [hget]
      by_cases hcmd : f.command = msgCmd
      · rw [if_pos hcmd]
        exact hrest
      · rw [if_neg hcmd]
        exact ih nb _ hrest
    | nil =>
      cases hst : s.stream with
      | nil =>
        have hget : iqueueGet s = (none, s) := by
          rw [iqueueGet, hiq, nextFrame, hst]
        simp only [hget]
        exact h
      | cons f rest =>
        have hget : iqueueGet s = (some f, { s with stream := rest }) := by
          rw [iqueueGet, hiq, nextFrame, hst]
          rw [hiq]
        simp only [hget]
        by_cases hcmd : f.command = msgCmd
        · rw [if_pos hcmd]
          exact h
        · rw [if_neg hcmd]
          exact ih nb _ h

theorem get_reply_iq_invariant :
    ∀ (fuel : Nat) (nb : Bool) (s : DState), (∀ g ∈ s.iq, hasDestination g = true) →
      ∀ g ∈ (get_reply fuel nb s).2.iq, hasDestination g = true := by
  intro fuel
  induction fuel with
  | zero => exact fun nb s h => h
  | succ n ih =>
    intro nb s h
    rw [get_reply]
    cases hrq : s.rq with
    | cons f rest => exact h
    | nil =>
      cases hst : s.stream with
      | nil =>
        have hnext : nextFrame s = (none, s) := by
          rw [nextFrame, hst]
        simp only [hnext]
        exact h
      | cons f rest =>
        have hnext : nextFrame s = (some f, { s with stream := rest }) := by
          rw [nextFrame, hst]
        simp only [hnext]
        by_cases hcmd : f.command = msgCmd
        · rw [if_pos hcmd]
          exact ih nb _ (iqueuePut_invariant h)
        · rw [if_neg hcmd]
          exact ih nb _ h

/-- Claim C5, counterexample: a frame without a destination header
(command RECEIPT), read from the transport during a `get_message` call, is
not dropped: `get_message` pushes it onto the reply queue and a subsequent
`get_reply` returns it, refuting "never appears in any get_reply result".
The destination filter is not on the `get_message` read path. -/
theorem claim5_counterexample :
    (get_reply 2 true (get_message 2 true
        ⟨[], [], [⟨"RECEIPT".data, [], []⟩]⟩).2).1 =
      some ⟨"RECEIPT".data, [], []⟩ := by
  decide

/-- Claim C5, amended: the destination filter lives in the pending-message
queue's `put`, exercised on the `get_reply` path, so the true invariant is
that no frame lacking a destination header ever enters the pending-message
queue: if every queued frame has a destination header, the same holds
after any `get_message` or `get_reply` call.  Frames lacking the header
that are read during `get_message` are returned directly (MESSAGE) or
preserved on the reply queue (non-MESSAGE); only a destination-less
MESSAGE read during `get_reply` is dropped. -/
theorem claim5_amended (fuel : Nat) (nb : Bool) (s : DState)
    (h : ∀ g ∈ s.iq, hasDestination g = true) :
    (∀ g ∈ (get_message fuel nb s).2.iq, hasDestination g = true) ∧
      (∀ g ∈ (get_reply fuel nb s).2.iq, hasDestination g = true) :=
  ⟨get_message_iq_invariant fuel nb s h, get_reply_iq_invariant fuel nb s h⟩

/-- Claim C5, witness: the invariant theorem applied to a concrete state
whose queue holds one destination-carrying MESSAGE frame and whose
transport yields one destination-less MESSAGE frame (which get_reply
drops). -/
theorem claim5_witness :
    (∀ g ∈ (get_message 3 false
        ⟨[⟨"MESSAGE".data, [(destinationK, .str "/q".data)], []⟩], [],
          [⟨"MESSAGE".data, [], []⟩]⟩).2.iq, hasDestination g = true) ∧
      (∀ g ∈ (get_reply 3 false
        ⟨[⟨"MESSAGE".data, [(destinationK, .str "/q".data)], []⟩], [],
          [⟨"MESSAGE".data, [], []⟩]⟩).2.iq, hasDestination g = true) :=
  claim5_amended 3 false
    ⟨[⟨"MESSAGE".data, [(destinationK, .str "/q".data)], []⟩], [],
      [⟨"MESSAGE".data, [], []⟩]⟩ (by decide)

/-! ### Claim C6 -/

/-- Claim C6: the code is wrong here.  On every exit path `_getline`
executes `setblocking(nb)` in its `finally` block, so the socket's
blocking flag ends up equal to `nb` — the opposite of the mode used during
the read and unrelated to the pre-call value, which is never saved.  In
particular a blocking read (`nb = False`) on a socket that was in blocking
mode leaves the socket non-blocking, exactly the misconfiguration the
specification says must not happen. -/
theorem claim6_code_bug :
    (∀ (nb : Bool) (st : SockState), ((getlineWithMode nb st).2).blocking = nb) ∧
      ((getlineWithMode false { blocking := true, stream := [] }).2).blocking = false := by
  constructor
  · intro nb st
    cases hs : scanPair '\x00' '\n' st.stream with
    | none => simp [getlineWithMode, hs]
    | some pq => simp [getlineWithMode, hs]
  · rfl

/-! ### Claim C7 -/

/-- Claim C7, counterexample: for a concrete binary frame (bytes_message
set at build time, body "abc") the serializer does remove the marker and
emit content-length, but the serialized output, delivered exactly as
emitted, is never read back: the reader finds no null + newline
terminator, so parsing yields no frame; the round-trip half of the claim
fails. -/
theorem claim7_counterexample :
    parse_frame (as_string "127.0.0.1".data "SEND".data
      [("bytes_message".data, HVal.bool true)] "abc".data).1 = none := by
  decide

/-- Claim C7, amended: when the binary marker is set at build time,
serialization removes the marker from the emitted header set and emits a
content-length header whose value is exactly the body's byte length; and
once a newline follows the serialized frame on the stream, parsing it
yields a frame flagged binary (bytes_message present again) with the body
recovered unchanged. -/
theorem claim7_amended (myName cmd body : Str) (h : List (Str × HVal))
    (hbmk : hasKey bytesMessageK h = true)
    (hcmdNL : '\n' ∉ cmd) (hcmdEnd : cmd.getLast? ≠ some '\x00')
    (hsafe : ∀ p ∈ h, safeEntry p)
    (hnameNL : '\n' ∉ myName) (hnameEnd : myName.getLast? ≠ some '\x00')
    (hnodup : (h.map Prod.fst).Nodup)
    (hbody : hasPair '\x00' '\n' body = false) :
    hasKey bytesMessageK (asStringHeaders myName h body) = false ∧
      dictLookup contentLengthK (asStringHeaders myName h body) =
        some (.nat body.length) ∧
      parse_frame ((as_string myName cmd h body).1 ++ ['\n']) =
        some (.ok ⟨cmd, dictInsert bytesMessageK (.bool true)
          ((asStringHeaders myName h body).map strEntry), body⟩, []) ∧
      hasKey bytesMessageK (dictInsert bytesMessageK (.bool true)
        ((asStringHeaders myName h body).map strEntry)) = true := by
  have hform : asStringHeaders myName h body =
      dictInsert xClientK (.str myName)
        (dictInsert contentLengthK (.nat body.length) (dictErase bytesMessageK h)) := by
    rw [asStringHeaders, hbmk]
    rw [if_pos rfl]
  refine ⟨?_, ?_, ?_, hasKey_dictInsert_self _ _ _⟩
  · rw [hform, hasKey_dictInsert_ne (by decide), hasKey_dictInsert_ne (by decide),
      hasKey_dictErase_self]
  · rw [hform, dictLookup_dictInsert_ne (by decide), dictLookup_dictInsert_self]
  · have hsafe' : ∀ p ∈ asStringHeaders myName h body, safeEntry p := by
      rw [hform]
      intro p hp
      rcases mem_dictInsert hp with rfl | hp2
      · refine ⟨⟨?_, ?_⟩, hnameNL, hnameEnd⟩
        · show ':' ∉ xClientK
          decide
        · show '\n' ∉ xClientK
          decide
      · rcases mem_dictInsert hp2 with rfl | hp3
        · refine ⟨⟨?_, ?_⟩, ?_, ?_⟩
          · show ':' ∉ contentLengthK
            decide
          · show '\n' ∉ contentLengthK
            decide
          · intro hm
            exact (natRepr_chars _ _ hm).1 rfl
          · exact getLast?_ne_of_not_mem (fun hm => (natRepr_chars _ _ hm).2 rfl)
        · exact hsafe p (mem_dictErase hp3)
    have hnodup' : ((asStringHeaders myName h body).map Prod.fst).Nodup := by
      rw [hform]
      exact nodup_keys_dictInsert _ _ (nodup_keys_dictInsert _ _
        (nodup_keys_dictErase _ hnodup))
    have hm := parse_of_serialized myName cmd body h hcmdNL hcmdEnd hsafe' hnodup' hbody
    have hclk : hasKey contentLengthK (asStringHeaders myName h body) = true := by
      rw [hform, hasKey_dictInsert_ne (by decide), hasKey_dictInsert_self]
    rw [hclk] at hm
    rw [if_pos rfl] at hm
    exact hm

/-- Claim C7, witness for the amended theorem at a concrete binary frame. -/
theorem claim7_witness :
    hasKey bytesMessageK
        (asStringHeaders "127.0.0.1".data [("bytes_message".data, HVal.bool true)]
          "abc".data) = false ∧
      dictLookup contentLengthK
          (asStringHeaders "127.0.0.1".data [("bytes_message".data, HVal.bool true)]
            "abc".data) = some (.nat "abc".data.length) ∧
      parse_frame ((as_string "127.0.0.1".data "SEND".data
          [("bytes_message".data, HVal.bool true)] "abc".data).1 ++ ['\n']) =
        some (.ok ⟨"SEND".data, dictInsert bytesMessageK (.bool true)
          ((asStringHeaders "127.0.0.1".data [("bytes_message".data, HVal.bool true)]
            "abc".data).map strEntry), "abc".data⟩, []) ∧
      hasKey bytesMessageK (dictInsert bytesMessageK (.bool true)
        ((asStringHeaders "127.0.0.1".data [("bytes_message".data, HVal.bool true)]
          "abc".data).map strEntry)) = true :=
  claim7_amended "127.0.0.1".data "SEND".data "abc".data
    [("bytes_message".data, HVal.bool true)]
    (by decide) (by decide) (by decide) (by decide) (by decide) (by decide)
    (by decide) (by decide)

/-! ### Claim C8 -/

/-- Claim C8: connecting against a transport whose first reply frame
carries headers {session: "abc123"} stores exactly that mapping as the
session, and every subsequent receipt-requested build attaches a receipt
header "abc123-" followed by the random integer stamp. -/
theorem claim8_session_receipt (replyCmd replyBody : Str)
    (hcmd : ¬ replyCmd = msgCmd) :
    connectSession [⟨replyCmd, [(sessionK, .str "abc123".data)], replyBody⟩] =
        some [(sessionK, .str "abc123".data)] ∧
      ∀ (cmd : Str) (hs : List (Str × HVal)) (body : Str) (r : Nat),
        dictLookup receiptK
            (build_frame [(sessionK, .str "abc123".data)] r cmd hs body true).headers =
          some (.str ("abc123".data ++ '-' :: natRepr r)) := by
  constructor
  · simp [connectSession, get_reply, nextFrame, iqueuePut, hcmd]
  · intro cmd hs body r
    rw [build_frame, if_pos rfl]
    show dictLookup receiptK (dictInsert receiptK _ hs) = _
    rw [dictLookup_dictInsert_self]
    rfl

/-- Claim C8, witness: a CONNECTED reply carrying session abc123 and a
receipt-requested SEND build with stamp 42. -/
theorem claim8_witness :
    connectSession [⟨"CONNECTED".data, [(sessionK, .str "abc123".data)], []⟩] =
        some [(sessionK, .str "abc123".data)] ∧
      dictLookup receiptK
          (build_frame [(sessionK, .str "abc123".data)] 42 "SEND".data [] "b".data
            true).headers =
        some (.str ("abc123".data ++ '-' :: natRepr 42)) :=
  ⟨(claim8_session_receipt "CONNECTED".data [] (by decide)).1,
    (claim8_session_receipt "CONNECTED".data [] (by decide)).2 "SEND".data [] "b".data 42⟩

/-! ### Claim C9 -/

/-- Claim C9: with both queues empty and the transport yielding nothing,
a non-blocking `get_message` or `get_reply` returns none and leaves the
whole state — in particular both queues — unchanged, for any loop fuel. -/
theorem claim9_nonblocking_nodata (fuel : Nat) :
    get_message fuel true ⟨[], [], []⟩ = (none, ⟨[], [], []⟩) ∧
      get_reply fuel true ⟨[], [], []⟩ = (none, ⟨[], [], []⟩) := by
  cases fuel with
  | zero => exact ⟨rfl, rfl⟩
  | succ n => exact ⟨rfl, rfl⟩

/-! ### Claim C10 -/

/-- Claim C10: `as_string` mutates the frame's header mapping in place.
With the binary marker present at build time, after one serialization the
headers equal the build-time mapping with bytes_message deleted,
content-length inserted, and x-client inserted — hence differ from the
supplied mapping — and a second serialization operates on this
already-augmented mapping, whose only further change is re-inserting
x-client. -/
theorem claim10_mutation (myName cmd body : Str) (h : List (Str × HVal))
    (hbm : hasKey bytesMessageK h = true) :
    (as_string myName cmd h body).2 =
        dictInsert xClientK (.str myName)
          (dictInsert contentLengthK (.nat body.length) (dictErase bytesMessageK h)) ∧
      (as_string myName cmd h body).2 ≠ h ∧
      (as_string myName cmd (as_string myName cmd h body).2 body).2 =
        dictInsert xClientK (.str myName) (as_string myName cmd h body).2 := by
  have hform : (as_string myName cmd h body).2 =
      dictInsert xClientK (.str myName)
        (dictInsert contentLengthK (.nat body.length) (dictErase bytesMessageK h)) := by
    show asStringHeaders myName h body = _
    rw [asStringHeaders, hbm, if_pos rfl]
  have h1 : hasKey bytesMessageK ((as_string myName cmd h body).2) = false := by
    rw [hform, hasKey_dictInsert_ne (by decide), hasKey_dictInsert_ne (by decide),
      hasKey_dictErase_self]
  refine ⟨hform, ?_, ?_⟩
  · intro heq
    rw [heq] at h1
    rw [h1] at hbm
    exact Bool.noConfusion hbm
  · show asStringHeaders myName ((as_string myName cmd h body).2) body = _
    rw [asStringHeaders, h1]
    simp only [Bool.false_eq_true, if_false]

/-- Claim C10, witness at a concrete binary frame. -/
theorem claim10_witness :
    (as_string "h1".data "SEND".data [("bytes_message".data, HVal.bool true)]
          "abc".data).2 =
        dictInsert xClientK (.str "h1".data)
          (dictInsert contentLengthK (.nat "abc".data.length)
            (dictErase bytesMessageK [("bytes_message".data, HVal.bool true)])) ∧
      (as_string "h1".data "SEND".data [("bytes_message".data, HVal.bool true)]
          "abc".data).2 ≠ [("bytes_message".data, HVal.bool true)] ∧
      (as_string "h1".data "SEND".data
          (as_string "h1".data "SEND".data [("bytes_message".data, HVal.bool true)]
            "abc".data).2 "abc".data).2 =
        dictInsert xClientK (.str "h1".data)
          (as_string "h1".data "SEND".data [("bytes_message".data, HVal.bool true)]
            "abc".data).2 :=
  claim10_mutation "h1".data "SEND".data "abc".data
    [("bytes_message".data, HVal.bool true)] (by decide)
